import Mathlib

/-!
Shallow embedding of the MPL epistemic modal logic library (the modified
MPL v1.3.2 file with epistemic operators, the authoritative source).

JavaScript data is modelled as follows:
* a JS object used as a record (truth assignments) is an association list
  `List (String × Bool)` with at most one entry per key in practice;
  assignment and deletion are `objSet` / `objDelete`;
* a JS `Map` (the per-world successor map) is an association list
  `List (String × List Nat)` preserving insertion order, since `Map`
  iteration order is insertion order; `mapGet` / `mapSet` / key test follow
  the `Map` API;
* `undefined` results are `Option.none`; thrown exceptions are
  `Except.error` with the message of the source;
* a tombstoned (removed) world slot holds JS `null`; the world array is
  `List (Option State)` where `none` is both `null` and out of range
  (both are falsy in every guard of the source).
-/

/-- Lookup in a JS object or Map modelled as an association list. -/
def objGet {α : Type} (l : List (String × α)) (k : String) : Option α :=
  match l with
  | [] => none
  | kv :: rest => if kv.1 = k then some kv.2 else objGet rest k

/-- JS assignment `o[k] = v` (or `Map.set`): overwrite in place keeping the
position of the key, append at the end for a fresh key (insertion order). -/
def objSet {α : Type} (l : List (String × α)) (k : String) (v : α) :
    List (String × α) :=
  match l with
  | [] => [(k, v)]
  | kv :: rest => if kv.1 = k then (k, v) :: rest else kv :: objSet rest k v

/-- JS `delete o[k]`: drop the entry for the key. -/
def objDelete {α : Type} (l : List (String × α)) (k : String) :
    List (String × α) :=
  match l with
  | [] => []
  | kv :: rest => if kv.1 = k then rest else kv :: objDelete rest k

/-- Remove the first occurrence of a value from a list, as
`L.splice(L.indexOf(target), 1)` does when `indexOf` is not `-1`. -/
def removeFirst (l : List Nat) (target : Nat) : List Nat :=
  match l with
  | [] => []
  | x :: rest => if x = target then rest else x :: removeFirst rest target

/-- A world record of the model: a truth assignment object and a successor
`Map` from agent name to the list of successor world indices. -/
structure State where
  assignment : List (String × Bool)
  successors : List (String × List Nat)
deriving Repr, DecidableEq

/-- The array `_states` of the model; `none` is a tombstone (`null`) and,
when indexing past the end, also stands for `undefined`. -/
abbrev Model : Type := List (Option State)

/-- The JS values the source hands to `removeTransition` as an `agentList`
element: an agent name (a string), a world record (as `removeState`
mistakenly passes), or `null`. Only a string can match a `Map` key. -/
inductive JsArg where
| str (s : String)
| stateObj (st : State)
| null
deriving Repr, DecidableEq

/-- `_states[i]`, merging out of range (`undefined`) and tombstone (`null`)
into `none` as every guard `!_states[i]` of the source does. -/
def stateAt (m : Model) (i : Nat) : Option State :=
  (m[i]?).join

/-- Functional update of world slot `i`, used to model in-place mutation of
a state record through the live array. -/
def updateSlot (m : Model) (i : Nat) (f : State → State) : Model :=
  match stateAt m i with
  | none => m
  | some st => List.set m i (some (f st))

/-- `addState(assignment)`: keep only the entries whose value is exactly
`true`, then push a world with an empty successor `Map`. -/
def addState (m : Model) (assignment : List (String × Bool)) : Model :=
  let processedAssignment :=
    assignment.foldl
      (fun acc kv => if kv.2 = true then objSet acc kv.1 true else acc) []
  m ++ [some { assignment := processedAssignment, successors := [] }]

/-- `editState(state, assignment)`: for each entry, value `true` inserts
the proposition, value `false` deletes it; no-op on an absent world. -/
def editState (m : Model) (state : Nat) (assignment : List (String × Bool)) :
    Model :=
  match stateAt m state with
  | none => m
  | some _ =>
    assignment.foldl
      (fun acc kv =>
        updateSlot acc state
          (fun st =>
            if kv.2 = true then
              { st with assignment := objSet st.assignment kv.1 true }
            else
              { st with assignment := objDelete st.assignment kv.1 })) m

/-- `addTransition(source, target, agentList)`: no-op unless both endpoints
are live; for each agent, append `target` to that agent key of the source
world successor `Map`, creating the key when absent. -/
def addTransition (m : Model) (source target : Nat)
    (agentList : List String) : Model :=
  if (stateAt m source).isNone ∨ (stateAt m target).isNone then m
  else
    agentList.foldl
      (fun acc agent =>
        updateSlot acc source
          (fun st =>
            match objGet st.successors agent with
            | some L => { st with successors := objSet st.successors agent (L ++ [target]) }
            | none => { st with successors := objSet st.successors agent [target] })) m

/-- `removeTransition(source, target, agentList)`: no-op on an absent
source; for each element of `agentList` that is a string present as a key
of the `Map` (`s.has(agent)`: a non-string element never matches a string
key), remove the first occurrence of `target` from its list. -/
def removeTransition (m : Model) (source target : Nat)
    (agentList : List JsArg) : Model :=
  match stateAt m source with
  | none => m
  | some _ =>
    agentList.foldl
      (fun acc arg =>
        match arg with
        | JsArg.str a =>
          updateSlot acc source
            (fun st =>
              match objGet st.successors a with
              | some L => { st with successors := objSet st.successors a (removeFirst L target) }
              | none => st)
        | _ => acc) m

/-- The live states array as the `agent` argument `removeState` passes to
`removeTransition` (the third parameter of `Array.prototype.forEach` is
the array itself, not an agent list). -/
def statesAsArgs (m : Model) : List JsArg :=
  m.map (fun os => match os with
    | some st => JsArg.stateObj st
    | none => JsArg.null)

/-- `removeState(state)`: no-op on an absent world; otherwise null the
slot and, for each live world of the (already nulled) array, call
`removeTransition(index, state, agent)` where `agent` is the
`forEach` callback third argument, i.e. the states array itself. -/
def removeState (m : Model) (state : Nat) : Model :=
  match stateAt m state with
  | none => m
  | some _ =>
    let m1 := List.set m state none
    (List.range m1.length).foldl
      (fun acc index =>
        match stateAt acc index with
        | none => acc
        | some _ => removeTransition acc index state (statesAsArgs acc)) m1

/-- `getStates()`: the assignment of each live world, `null` for a
tombstone, positions preserved. -/
def getStates (m : Model) : List (Option (List (String × Bool))) :=
  m.map (fun os => os.map State.assignment)

/-- `valuation(propvar, state)`: throws when the world is absent, else
`!!assignment[propvar]` (truthiness of the stored value, `false` when the
key is absent). -/
def valuation (m : Model) (propvar : String) (state : Nat) :
    Except String Bool :=
  match stateAt m state with
  | none => Except.error ("State " ++ toString state ++ " not found!")
  | some st =>
    Except.ok (match objGet st.assignment propvar with
      | some b => b
      | none => false)

/-- `getSuccessorsOf(source, agent)` where the agent key may be
`undefined` (`none`): `undefined` when the source world is absent, else
`Map.get` (an `undefined` key is never present in the `Map`). -/
def getSuccessorsOfA (m : Model) (source : Nat) (agent : Option String) :
    Option (List Nat) :=
  match stateAt m source with
  | none => none
  | some st =>
    match agent with
    | none => none
    | some k => objGet st.successors k

/-- `getSuccessorsOf(source, agent)` with a string agent key. -/
def getSuccessorsOf (m : Model) (source : Nat) (agent : String) :
    Option (List Nat) :=
  getSuccessorsOfA m source (some agent)

/-- `getSuccessorsOfOld(source)`: `undefined` when the source world is
absent, else `Array.from(successors.values())`: the list of per-agent
successor lists in `Map` insertion order (not their union). -/
def getSuccessorsOfOld (m : Model) (source : Nat) :
    Option (List (List Nat)) :=
  match stateAt m source with
  | none => none
  | some st => some (st.successors.map Prod.snd)

/-! ### Reachability closure (`getAllSuccessorsOf`) -/

/-- Every successor-list target of every live world of the model, the
finite universe used to prove the `while` loop of `getAllSuccessorsOf`
terminating. -/
def allTargets (m : Model) : List Nat :=
  (m.filterMap id).flatMap (fun st => st.successors.flatMap Prod.snd)

theorem objGet_exists_mem {α : Type} (l : List (String × α)) (k : String)
    (v : α) (h : objGet l k = some v) : ∃ kv ∈ l, kv.2 = v := by
  induction l with
  | nil => simp [objGet] at h
  | cons kv rest ih =>
    by_cases hk : kv.1 = k
    · simp [objGet, hk] at h
      exact ⟨kv, List.mem_cons_self kv rest, h⟩
    · simp [objGet, hk] at h
      obtain ⟨kv2, hmem, hv⟩ := ih h
      exact ⟨kv2, List.mem_cons_of_mem kv hmem, hv⟩

theorem stateAt_mem (m : Model) (i : Nat) (st : State)
    (h : stateAt m i = some st) : some st ∈ m := by
  unfold stateAt at h
  rw [Option.join_eq_some] at h
  exact List.getElem?_mem h

theorem mem_allTargets_of_getSuccessorsOfA (m : Model) (s : Nat)
    (agent : Option String) (L : List Nat)
    (h : getSuccessorsOfA m s agent = some L) :
    ∀ x ∈ L, x ∈ allTargets m := by
  intro x hx
  unfold getSuccessorsOfA at h
  cases hst : stateAt m s with
  | none => rw [hst] at h; exact absurd h (by simp)
  | some st =>
    rw [hst] at h
    cases agent with
    | none => exact absurd h (by simp)
    | some k =>
      simp at h
      obtain ⟨kv, hkv, hsnd⟩ := objGet_exists_mem st.successors k L h
      unfold allTargets
      rw [List.mem_flatMap]
      refine ⟨st, ?_, ?_⟩
      · rw [List.mem_filterMap]
        exact ⟨some st, stateAt_mem m s st hst, rfl⟩
      · rw [List.mem_flatMap]
        exact ⟨kv, hkv, by rw [hsnd]; exact hx⟩

theorem getD_succ_subset (m : Model) (s : Nat) (agent : Option String) :
    ∀ x ∈ (getSuccessorsOfA m s agent).getD [], x ∈ allTargets m := by
  intro x hx
  cases h : getSuccessorsOfA m s agent with
  | none => rw [h] at hx; simp at hx
  | some L =>
    rw [h] at hx
    exact mem_allTargets_of_getSuccessorsOfA m s agent L h x hx

theorem length_filter_mono {α : Type} (l : List α) (p q : α → Bool)
    (hpq : ∀ x, q x = true → p x = true) :
    (l.filter q).length ≤ (l.filter p).length := by
  induction l with
  | nil => simp
  | cons b t ih =>
    by_cases hq : q b = true
    · simp [List.filter_cons, hq, hpq b hq]; omega
    · simp only [List.filter_cons]
      rw [Bool.not_eq_true] at hq
      rw [hq]
      by_cases hp : p b = true
      · simp [hp]; omega
      · rw [Bool.not_eq_true] at hp; rw [hp]; simpa using ih

theorem length_filter_lt {α : Type} (l : List α) (p q : α → Bool)
    (hpq : ∀ x, q x = true → p x = true) (a : α) (ha : a ∈ l)
    (hpa : p a = true) (hqa : q a = false) :
    (l.filter q).length < (l.filter p).length := by
  induction l with
  | nil => simp at ha
  | cons b t ih =>
    rcases List.mem_cons.mp ha with hb | hat
    · subst hb
      simp only [List.filter_cons, hpa, hqa]
      simp only [if_true, if_false]
      have := length_filter_mono t p q hpq
      simp
      omega
    · have hlt := ih hat
      by_cases hq : q b = true
      · simp [List.filter_cons, hq, hpq b hq]; omega
      · rw [Bool.not_eq_true] at hq
        simp only [List.filter_cons, hq]
        by_cases hp : p b = true
        · simp [hp]; omega
        · rw [Bool.not_eq_true] at hp; rw [hp]; simpa using hlt

/-- The worklist loop of `getAllSuccessorsOf`. The queue `C` and visited
list `V` evolve as the source does: the loop runs `while (C[0])`, so it
stops when `C` is empty (`undefined` is falsy) and also, wrongly, when the
head world index is `0` (the number `0` is falsy in JavaScript); a head
already in `V` is just shifted; otherwise its successor list (empty when
`undefined`) is appended to the queue and the head is marked visited. The
proof argument `hC` keeps the queue inside the finite universe
`allTargets m` and is what makes the loop provably terminating. -/
def gasLoop (m : Model) (agent : Option String) :
    (C : List Nat) → (V : List Nat) →
    (hC : ∀ x ∈ C, x ∈ allTargets m) → List Nat
  | [], V, _ => V
  | s :: rest, V, hC =>
    if s = 0 then V
    else if hv : s ∈ V then
      gasLoop m agent rest V (fun x hx => hC x (List.mem_cons_of_mem s hx))
    else
      gasLoop m agent (rest ++ (getSuccessorsOfA m s agent).getD [])
        (V ++ [s])
        (fun x hx => by
          rcases List.mem_append.mp hx with h | h
          · exact hC x (List.mem_cons_of_mem s h)
          · exact getD_succ_subset m s agent x h)
termination_by C V _ =>
  (((allTargets m).dedup.filter (fun u => !decide (u ∈ V))).length, C.length)
decreasing_by
· apply Prod.Lex.right
  simp
· apply Prod.Lex.left
  refine length_filter_lt _ _ _ ?hpq s ?ha ?hpa ?hqa
  case hpq =>
    intro x hx
    rw [Bool.not_eq_true', decide_eq_false_iff_not] at hx
    rw [Bool.not_eq_true', decide_eq_false_iff_not]
    exact fun hxv => hx (List.mem_append_left [s] hxv)
  case ha => exact List.mem_dedup.mpr (hC s (List.mem_cons_self s rest))
  case hpa =>
    rw [Bool.not_eq_true', decide_eq_false_iff_not]
    exact hv
  case hqa => simp

/-- `getAllSuccessorsOf(state, agent)`: multi-step reachability for one
agent. When the direct successor list is `undefined` the loop is skipped
and `V = []` is returned, which coincides with running the worklist loop
on an empty queue; otherwise the loop runs on a copy of that list. -/
def getAllSuccessorsOf (m : Model) (state : Nat) (agent : Option String) :
    List Nat :=
  gasLoop m agent ((getSuccessorsOfA m state agent).getD []) []
    (fun x hx => getD_succ_subset m state agent x hx)

/-! ### Formulas and the truth evaluator -/

/-- The JSON formula tree consumed by the evaluator, one constructor per
node kind recognized by the dispatch of `_truth`. -/
inductive Json where
| prop (s : String)
| neg (f : Json)
| nec (f : Json)
| poss (f : Json)
| conj (f g : Json)
| disj (f g : Json)
| impl (f g : Json)
| equi (f g : Json)
| know (a f : Json)
| group (a f : Json)
| eknow (g f : Json)
| distrib (g f : Json)
| common (g f : Json)
deriving Repr, DecidableEq

/-- The `.prop` field of a node: the proposition name of a leaf, and JS
`undefined` on every other node kind. -/
def propOf (j : Json) : Option String :=
  match j with
  | Json.prop s => some s
  | _ => none

/-- A value `_truth` can produce: a boolean, an array of agent nodes (the
`group` branch), or `undefined` (the epistemic branches on a non-group
left operand). -/
inductive TruthRes where
| bool (b : Bool)
| arr (l : List Json)
| undef
deriving Repr, DecidableEq

/-- JS truthiness of a `_truth` result: an array (an object) is always
truthy, `undefined` is falsy. -/
def truthy (r : TruthRes) : Bool :=
  match r with
  | TruthRes.bool b => b
  | TruthRes.arr _ => true
  | TruthRes.undef => false

/-- JS strict equality `===` on `_truth` results: equality on booleans and
on `undefined`; two arrays produced by distinct evaluations are distinct
objects, hence never strictly equal. -/
def jsStrictEq (a b : TruthRes) : Bool :=
  match a, b with
  | TruthRes.bool x, TruthRes.bool y => x == y
  | TruthRes.undef, TruthRes.undef => true
  | _, _ => false

/-- The `while (g)` loop of the `group` branch: from the current group
node children `g0, g1`, push `g0` unless already collected, push `g1`
when its `.prop` field is truthy (a non-empty proposition name), then
continue into `g1` when it is itself a group node. Modelling note: the
JS duplicate test `L.indexOf(a)` compares object references, and a
parser-built tree holds a fresh object per agent occurrence, so the
source never deduplicates repeated agents there; this embedding compares
nodes structurally, which coincides only when equal nodes are shared
references. No theorem below depends on the group branch. -/
def groupWalk (g0 g1 : Json) (L : List Json) : List Json :=
  let L1 := if g0 ∈ L then L else L ++ [g0]
  let L2 :=
    match g1 with
    | Json.prop s => if s = "" then L1 else L1 ++ [g1]
    | _ => L1
  match g1 with
  | Json.group h0 h1 => groupWalk h0 h1 L2
  | _ => L2

/-- `gAccessibility(state, list)`: per agent node of the list, the
multi-step closure for its `.prop` field, all merged left to right without
duplicates (the union reachability used by common knowledge). -/
def gAccessibility (m : Model) (state : Nat) (list : List Json) :
    List Nat :=
  let S := list.map (fun agent => getAllSuccessorsOf m state (propOf agent))
  S.foldl
    (fun F array =>
      array.foldl (fun F2 s => if s ∈ F2 then F2 else F2 ++ [s]) F) []

/-- `gAccessStrict(state, list)`: start from the first closure of the list
(`undefined`, hence `none`, when the list is empty) and keep only the
worlds present in every other closure (the intersection reachability used
by distributed knowledge). -/
def gAccessStrict (m : Model) (state : Nat) (list : List Json) :
    Option (List Nat) :=
  let S := list.map (fun agent => getAllSuccessorsOf m state (propOf agent))
  match S with
  | [] => none
  | F0 :: _ =>
    some (S.foldl (fun F array => F.filter (fun s => s ∈ array)) F0)

theorem Json.sizeOf_pos (j : Json) : 0 < sizeOf j := by
  cases j <;> simp

/-!
`_truth(model, state, json)` and the `Array.prototype.every` / `some`
loops it runs. JS coercion points kept faithfully:
* a leaf with an empty proposition name is falsy for `if (json.prop)` and
  falls through every branch to the `Invalid formula!` error;
* `&&` and `||` return one of their operands, not a coerced boolean;
* `every` / `some` test the truthiness of the callback result;
* `Array.from(undefined)` in the `nec` / `poss` branches and
  `undefined.every` in the `distrib` branch throw a `TypeError`;
* the `eknow` branch evaluates the freshly built node
  `{know: [agent, f]}`; the body of the `know` branch is inlined for it.
-/

mutual

def _truth (m : Model) (state : Nat) (j : Json) : Except String TruthRes :=
match j with
| Json.prop s =>
  if s = "" then Except.error "Invalid formula!"
  else (valuation m s state).map TruthRes.bool
| Json.neg f =>
  match _truth m state f with
  | Except.error e => Except.error e
  | Except.ok r => Except.ok (TruthRes.bool (!truthy r))
| Json.conj f g =>
  match _truth m state f with
  | Except.error e => Except.error e
  | Except.ok ra => if truthy ra then _truth m state g else Except.ok ra
| Json.disj f g =>
  match _truth m state f with
  | Except.error e => Except.error e
  | Except.ok ra => if truthy ra then Except.ok ra else _truth m state g
| Json.impl f g =>
  match _truth m state f with
  | Except.error e => Except.error e
  | Except.ok ra =>
    if truthy ra then _truth m state g else Except.ok (TruthRes.bool true)
| Json.equi f g =>
  match _truth m state f with
  | Except.error e => Except.error e
  | Except.ok ra =>
    match _truth m state g with
    | Except.error e => Except.error e
    | Except.ok rb => Except.ok (TruthRes.bool (jsStrictEq ra rb))
| Json.nec f =>
  match getSuccessorsOfOld m state with
  | none => Except.error "TypeError: undefined is not iterable"
  | some L =>
    match L with
    | [] => Except.ok (TruthRes.bool true)
    | L0 :: _ => (truthEvery m L0 f).map TruthRes.bool
| Json.poss f =>
  match getSuccessorsOfOld m state with
  | none => Except.error "TypeError: undefined is not iterable"
  | some L =>
    match L with
    | [] => Except.ok (TruthRes.bool true)
    | L0 :: _ => (truthSome m L0 f).map TruthRes.bool
| Json.know a f =>
  match getSuccessorsOfA m state (propOf a) with
  | none => Except.ok (TruthRes.bool true)
  | some A => (truthEvery m A f).map TruthRes.bool
| Json.group g0 g1 => Except.ok (TruthRes.arr (groupWalk g0 g1 []))
| Json.eknow g f =>
  match _truth m state g with
  | Except.error e => Except.error e
  | Except.ok (TruthRes.arr L) => (eknowEvery m state L f).map TruthRes.bool
  | Except.ok _ => Except.ok TruthRes.undef
| Json.distrib g f =>
  match _truth m state g with
  | Except.error e => Except.error e
  | Except.ok (TruthRes.arr L) =>
    match gAccessStrict m state L with
    | none => Except.error "TypeError: cannot read property every of undefined"
    | some A => (truthEvery m A f).map TruthRes.bool
  | Except.ok _ => Except.ok TruthRes.undef
| Json.common g f =>
  match _truth m state g with
  | Except.error e => Except.error e
  | Except.ok (TruthRes.arr L) =>
    (truthEvery m (gAccessibility m state L) f).map TruthRes.bool
  | Except.ok _ => Except.ok TruthRes.undef
termination_by (sizeOf j, 0)
decreasing_by
all_goals
  first
  | decreasing_tactic
  | (apply Prod.Lex.left
     have hg := Json.sizeOf_pos g
     simp
     omega)

def truthEvery (m : Model) (l : List Nat) (f : Json) : Except String Bool :=
match l with
| [] => Except.ok true
| s :: rest =>
  match _truth m s f with
  | Except.error e => Except.error e
  | Except.ok r => if truthy r then truthEvery m rest f else Except.ok false
termination_by (sizeOf f, l.length + 1)

def truthSome (m : Model) (l : List Nat) (f : Json) : Except String Bool :=
match l with
| [] => Except.ok false
| s :: rest =>
  match _truth m s f with
  | Except.error e => Except.error e
  | Except.ok r => if truthy r then Except.ok true else truthSome m rest f
termination_by (sizeOf f, l.length + 1)

def eknowEvery (m : Model) (state : Nat) (agents : List Json) (f : Json) :
    Except String Bool :=
match agents with
| [] => Except.ok true
| a :: rest =>
  match
    (match getSuccessorsOfA m state (propOf a) with
     | none => Except.ok true
     | some A => truthEvery m A f) with
  | Except.error e => Except.error e
  | Except.ok b =>
    if b then eknowEvery m state rest f else Except.ok false
termination_by (sizeOf f + 1, agents.length)

end

/-! ### Public entry point `truth` -/

/-- The `model` argument of the public entry point: either an actual
`MPL.Model` instance or any other JS value (`instanceof` fails). -/
inductive ModelArg where
| model (m : Model)
| notModel

/-- The `wff` argument of the public entry point: either an actual
`MPL.Wff` instance carrying its JSON tree, or any other JS value. -/
inductive WffArg where
| wff (json : Json)
| notWff

/-- `truth(model, state, wff)`: reject a non-Model, then a world index
whose `getStates()` entry is falsy (`null` tombstone or `undefined` out of
range), then a non-Wff; only then evaluate `_truth` on the tree. -/
def truth (ma : ModelArg) (state : Nat) (wa : WffArg) :
    Except String TruthRes :=
  match ma with
  | ModelArg.notModel => Except.error "Invalid model!"
  | ModelArg.model m =>
    match (getStates m)[state]? with
    | some (some _) =>
      match wa with
      | WffArg.notWff => Except.error "Invalid wff!"
      | WffArg.wff j => _truth m state j
    | _ => Except.error ("State " ++ toString state ++ " not found!")

/-! ### The `Wff` constructor and `_jsonToASCII` -/

/-- Unary node kinds recognized by `_jsonToASCII`. -/
inductive UnKind where
| neg | nec | poss
deriving Repr, DecidableEq

/-- Binary node kinds recognized by `_jsonToASCII`. -/
inductive BinKind where
| conj | disj | impl | equi | know | group | eknow | distrib | common
deriving Repr, DecidableEq

/-- Arbitrary JSON handed to the `Wff` constructor: a leaf, a recognized
unary node, a node with a recognized binary tag over an arbitrary child
array, or a node carrying no recognized tag at all. -/
inductive RawJson where
| prop (s : String)
| unary (k : UnKind) (child : RawJson)
| binary (k : BinKind) (children : List RawJson)
| unrecognized

/-- ASCII symbol of a unary operator. -/
def unSymbol (k : UnKind) : String :=
  match k with
  | UnKind.neg => "~"
  | UnKind.nec => "[]"
  | UnKind.poss => "<>"

/-- ASCII rendering of a binary node from its rendered children; every
kind is parenthesized except `group`, rendered as a bare comma join. -/
def binWrap (k : BinKind) (a b : String) : String :=
  match k with
  | BinKind.conj => "(" ++ a ++ " & " ++ b ++ ")"
  | BinKind.disj => "(" ++ a ++ " | " ++ b ++ ")"
  | BinKind.impl => "(" ++ a ++ " -> " ++ b ++ ")"
  | BinKind.equi => "(" ++ a ++ " <-> " ++ b ++ ")"
  | BinKind.know => "(" ++ a ++ " ? " ++ b ++ ")"
  | BinKind.group => a ++ " , " ++ b
  | BinKind.eknow => "(" ++ a ++ " # " ++ b ++ ")"
  | BinKind.distrib => "(" ++ a ++ " / " ++ b ++ ")"
  | BinKind.common => "(" ++ a ++ " § " ++ b ++ ")"

/-- `_jsonToASCII(json)`: renders a leaf with a truthy (non-empty) name,
a recognized unary node, or a recognized binary node whose child array has
exactly two elements; everything else falls through every branch of the
dispatch and throws `Invalid JSON for formula!`. -/
def _jsonToASCII (j : RawJson) : Except String String :=
  match j with
  | RawJson.prop s =>
    if s = "" then Except.error "Invalid JSON for formula!" else Except.ok s
  | RawJson.unary k f =>
    match _jsonToASCII f with
    | Except.error e => Except.error e
    | Except.ok a => Except.ok (unSymbol k ++ a)
  | RawJson.binary k children =>
    match children with
    | [a, b] =>
      match _jsonToASCII a with
      | Except.error e => Except.error e
      | Except.ok sa =>
        match _jsonToASCII b with
        | Except.error e => Except.error e
        | Except.ok sb => Except.ok (binWrap k sa sb)
    | _ => Except.error "Invalid JSON for formula!"
  | RawJson.unrecognized => Except.error "Invalid JSON for formula!"

/-- The `Wff` constructor on a JSON input: it stores the tree and computes
`_ascii = _jsonToASCII(_json)`; the later LaTeX and Unicode conversions
are pure string substitutions that never throw, so construction succeeds
exactly when `_jsonToASCII` does, and throws its error otherwise. -/
def Wff (asciiOrJSON : RawJson) : Except String String :=
  _jsonToASCII asciiOrJSON

mutual

/-- A node of the tree matches no recognized kind, or a recognized binary
tag carries a child array whose length is not exactly two. -/
def hasBadNode (j : RawJson) : Bool :=
match j with
| RawJson.prop _ => false
| RawJson.unary _ f => hasBadNode f
| RawJson.binary _ children =>
  decide (children.length ≠ 2) || hasBadNodeList children
| RawJson.unrecognized => true

def hasBadNodeList (l : List RawJson) : Bool :=
match l with
| [] => false
| j :: rest => hasBadNode j || hasBadNodeList rest

end

/-! ### Model string serialization -/

/-- `Array.prototype.join()` with the default comma separator. -/
def joinComma (l : List String) : String :=
  match l with
  | [] => ""
  | [x] => x
  | x :: rest => x ++ "," ++ joinComma rest

/-- `String.prototype.split(sep)` for a one-character separator: always at
least one (possibly empty) piece. -/
def splitOnChar (sep : Char) (l : List Char) : List (List Char) :=
  match l with
  | [] => [[]]
  | c :: rest =>
    let r := splitOnChar sep rest
    if c = sep then [] :: r
    else
      match r with
      | [] => [[c]]
      | seg :: segs => (c :: seg) :: segs

/-- A `\w` word character: letter, digit or underscore. -/
def isWordChar (c : Char) : Bool :=
  c.isAlpha || c.isDigit || c = '_'

/-- The piece grammar `(?:ε|(?:w+,)*w+)` over a character class: empty, or
comma-separated non-empty runs of characters of the class. -/
def csvOk (p : List Char) (good : Char → Bool) : Bool :=
  p = [] || (splitOnChar ',' p).all (fun seg => seg ≠ [] && seg.all good)

/-- Split a character list at the last occurrence of `S`, the
decomposition the greedy `match(/A(.*)S(.*)/)` of the source produces and
the only decomposition that can satisfy the token grammar. -/
def lastSplitAtS (l : List Char) : Option (List Char × List Char) :=
  match l with
  | [] => none
  | c :: rest =>
    match lastSplitAtS rest with
    | some (a, b) => some (c :: a, b)
    | none => if c = 'S' then some ([], rest) else none

/-- One `;`-separated chunk of the wire format: empty (the bare `;`
alternative of the regex) or `A<props>S<succs>` with `props` a comma list
of word runs and `succs` a comma list of digit runs. -/
def tokenOk (t : List Char) : Bool :=
  match t with
  | [] => true
  | c :: r =>
    c = 'A' &&
      match lastSplitAtS r with
      | some (p, d) => csvOk p isWordChar && csvOk d Char.isDigit
      | none => false

/-- `regex.test(modelString)` for
`^(?:;|(?:A|A(?:\w+,)*\w+)(?:S|S(?:\d+,)*\d+);)+$`: the string is a
non-empty run of chunks each ending in `;`, i.e. splitting on `;` yields
a final empty piece, at least one chunk, and every chunk well-formed. -/
def regexTest (s : String) : Bool :=
  let parts := splitOnChar ';' s.toList
  match parts.reverse with
  | [] => false
  | lastPart :: revInit =>
    lastPart = [] && !revInit.isEmpty && revInit.all tokenOk

/-- `getModelString()`: one chunk per world in order, `;` for a tombstone,
otherwise `A`, the comma-joined assignment keys, and `S`. The source then
runs `for (var agent in state.successors)`, but `successors` is a `Map`
whose entries are internal slots, not enumerable object properties, so the
loop enumerates no keys and the relation segment is always empty. -/
def getModelString (m : Model) : String :=
  m.foldl
    (fun acc os =>
      match os with
      | some st =>
        acc ++ "A" ++ joinComma (st.assignment.map Prod.fst) ++ "S" ++ ";"
      | none => acc ++ ";") ""

/-- `+succState`: numeric coercion of a validated digit run. -/
def charsToNat (cs : List Char) : Nat :=
  cs.foldl (fun n c => n * 10 + (c.toNat - 48)) 0

/-- `loadFromModelString(modelString)`: a string failing the regex is
rejected with the model untouched. Otherwise the states array is rebuilt:
an empty chunk restores a tombstone, and `A<props>S<succs>` restores a
world whose assignment maps each comma-separated name to `true` (its
`successors` is reset to a plain empty object). The transition-restore
loop then calls `addTransition(source, target, agent)` for every parsed
successor index, but `agent` is an undeclared identifier, so the first
such call throws a `ReferenceError` (before any transition is added);
when every parsed successor list is empty the loop completes. Modelling
note: the error result carries only the message, whereas the JS throw
propagates after `_states` has already been replaced by the rebuilt,
transition-free worlds; no statement below depends on the error path. -/
def loadFromModelString (m : Model) (modelString : String) :
    Except String Model :=
  if !regexTest modelString then Except.ok m
  else
    let inputStates := (splitOnChar ';' modelString.toList).dropLast
    let pairs : List (Option (List String × List Nat)) :=
      inputStates.map (fun t =>
        match t with
        | [] => none
        | _ :: r =>
          match lastSplitAtS r with
          | some (p, d) =>
            some
              ((if p = [] then [] else
                  (splitOnChar ',' p).map (fun cs => String.mk cs)),
               (if d = [] then [] else
                  (splitOnChar ',' d).map charsToNat))
          | none => some ([], []))
    let states : Model :=
      pairs.map (fun po =>
        match po with
        | none => none
        | some (props, _) =>
          some { assignment := props.foldl (fun acc pv => objSet acc pv true) [],
                 successors := [] })
    if pairs.any (fun po =>
        match po with
        | some (_, succs) => !succs.isEmpty
        | none => false) then
      Except.error "ReferenceError: agent is not defined"
    else
      Except.ok states

/-! ### Operation traces for the valuation invariant -/

/-- One mutating operation of the model interface. -/
inductive Op where
| addStateOp (assignment : List (String × Bool))
| editStateOp (i : Nat) (assignment : List (String × Bool))
| removeStateOp (i : Nat)
| addTransitionOp (source target : Nat) (agents : List String)
| removeTransitionOp (source target : Nat) (agents : List JsArg)

/-- Apply one operation. -/
def applyOp (m : Model) (op : Op) : Model :=
  match op with
  | Op.addStateOp a => addState m a
  | Op.editStateOp i a => editState m i a
  | Op.removeStateOp i => removeState m i
  | Op.addTransitionOp s t ags => addTransition m s t ags
  | Op.removeTransitionOp s t ags => removeTransition m s t ags

/-- Run a trace of operations on the empty model `new Model()`. -/
def applyOps (ops : List Op) : Model :=
  ops.foldl applyOp []

/-- The stored-valuation invariant: every entry of every live world maps
its proposition to `true` (no entry is ever stored for a false one). -/
def goodModel (m : Model) : Bool :=
  m.all (fun os =>
    match os with
    | some st => st.assignment.all (fun kv => kv.2)
    | none => true)

/-! ### Helper lemmas -/

theorem mem_foldl_dedup_left (arr : List Nat) :
    ∀ (F : List Nat) (x : Nat), x ∈ F →
      x ∈ arr.foldl (fun F2 s => if s ∈ F2 then F2 else F2 ++ [s]) F := by
  induction arr with
  | nil => intro F x hx; exact hx
  | cons a rest ih =>
    intro F x hx
    simp only [List.foldl_cons]
    apply ih
    by_cases h : a ∈ F
    · simpa [h]
    · simp only [h, if_false]
      exact List.mem_append_left [a] hx

theorem mem_foldl_dedup_right (arr : List Nat) :
    ∀ (F : List Nat) (x : Nat), x ∈ arr →
      x ∈ arr.foldl (fun F2 s => if s ∈ F2 then F2 else F2 ++ [s]) F := by
  induction arr with
  | nil => intro F x hx; simp at hx
  | cons a rest ih =>
    intro F x hx
    simp only [List.foldl_cons]
    rcases List.mem_cons.mp hx with rfl | hxr
    · apply mem_foldl_dedup_left
      by_cases h : x ∈ F
      · simp [h]
      · simp only [h, if_false]
        exact List.mem_append_right F (List.mem_singleton.mpr rfl)
    · exact ih _ x hxr

theorem mem_objSet {α : Type} (k : String) (v : α) :
    ∀ (l : List (String × α)), ∀ kv ∈ objSet l k v, kv ∈ l ∨ kv = (k, v) := by
  intro l
  induction l with
  | nil =>
    intro kv hkv
    simp [objSet] at hkv
    exact Or.inr hkv
  | cons b rest ih =>
    intro kv hkv
    by_cases hb : b.1 = k
    · simp only [objSet, hb, if_true] at hkv
      rcases List.mem_cons.mp hkv with h | h
      · exact Or.inr h
      · exact Or.inl (List.mem_cons_of_mem b h)
    · simp only [objSet, hb, if_false] at hkv
      rcases List.mem_cons.mp hkv with h | h
      · exact Or.inl (List.mem_cons.mpr (Or.inl h))
      · rcases ih kv h with h2 | h2
        · exact Or.inl (List.mem_cons_of_mem b h2)
        · exact Or.inr h2

theorem mem_objDelete {α : Type} (k : String) :
    ∀ (l : List (String × α)), ∀ kv ∈ objDelete l k, kv ∈ l := by
  intro l
  induction l with
  | nil => intro kv hkv; simp [objDelete] at hkv
  | cons b rest ih =>
    intro kv hkv
    by_cases hb : b.1 = k
    · simp only [objDelete, hb, if_true] at hkv
      exact List.mem_cons_of_mem b hkv
    · simp only [objDelete, hb, if_false] at hkv
      rcases List.mem_cons.mp hkv with h | h
      · exact List.mem_cons.mpr (Or.inl h)
      · exact List.mem_cons_of_mem b (ih kv h)

theorem objGet_eq_none_iff {α : Type} (p : String) :
    ∀ (l : List (String × α)), objGet l p = none ↔ ∀ kv ∈ l, kv.1 ≠ p := by
  intro l
  induction l with
  | nil => simp [objGet]
  | cons b rest ih =>
    by_cases hb : b.1 = p
    · simp [objGet, hb]
    · simp [objGet, hb, ih]

/-- Invariant of every live world assignment under a predicate. -/
def AssignInv (Q : List (String × Bool) → Prop) (m : Model) : Prop :=
  ∀ os ∈ m, ∀ st, os = some st → Q st.assignment

/-- Only-true-entries invariant as a proposition. -/
abbrev GoodModelP : Model → Prop :=
  AssignInv (fun a => ∀ kv ∈ a, kv.2 = true)

theorem goodModel_iff (m : Model) : goodModel m = true ↔ GoodModelP m := by
  simp only [goodModel, List.all_eq_true, AssignInv, GoodModelP]
  constructor
  · intro h os hos st hst kv hkv
    have h2 := h os hos
    rw [hst] at h2
    simp only [List.all_eq_true] at h2
    exact h2 kv hkv
  · intro h os hos
    cases os with
    | none => rfl
    | some st =>
      simp only [List.all_eq_true]
      exact fun kv hkv => h (some st) hos st rfl kv hkv

theorem foldl_preserve {α β : Type} (P : α → Prop) (f : α → β → α) :
    ∀ (l : List β) (init : α), P init →
      (∀ acc x, x ∈ l → P acc → P (f acc x)) → P (l.foldl f init) := by
  intro l
  induction l with
  | nil => intro init h _; exact h
  | cons b rest ih =>
    intro init h hstep
    exact ih (f init b) (hstep init b (List.mem_cons_self b rest) h)
      (fun acc x hx => hstep acc x (List.mem_cons_of_mem b hx))

theorem mem_updateSlot (m : Model) (i : Nat) (f : State → State) :
    ∀ os ∈ updateSlot m i f,
      os ∈ m ∨ ∃ st, stateAt m i = some st ∧ os = some (f st) := by
  intro os hos
  unfold updateSlot at hos
  split at hos
  · exact Or.inl hos
  · next st h =>
    rcases List.mem_or_eq_of_mem_set hos with h2 | h2
    · exact Or.inl h2
    · exact Or.inr ⟨st, h, h2⟩

theorem AssignInv_updateSlot (Q : List (String × Bool) → Prop) (m : Model)
    (i : Nat) (f : State → State) (h : AssignInv Q m)
    (hf : ∀ st, Q st.assignment → Q (f st).assignment) :
    AssignInv Q (updateSlot m i f) := by
  intro os hos st hst
  rcases mem_updateSlot m i f os hos with h2 | ⟨st0, hst0, h2⟩
  · exact h os h2 st hst
  · rw [h2] at hst
    injection hst with hst
    rw [← hst]
    exact hf st0 (h (some st0) (stateAt_mem m i st0 hst0) st0 rfl)

theorem AssignInv_addTransition (Q : List (String × Bool) → Prop)
    (m : Model) (s t : Nat) (ags : List String) (h : AssignInv Q m) :
    AssignInv Q (addTransition m s t ags) := by
  unfold addTransition
  split
  · exact h
  · apply foldl_preserve (AssignInv Q) _ ags m h
    intro acc agent _ hacc
    apply AssignInv_updateSlot _ _ _ _ hacc
    intro st hq
    cases hg : objGet st.successors agent <;> exact hq

theorem AssignInv_removeTransition (Q : List (String × Bool) → Prop)
    (m : Model) (s t : Nat) (ags : List JsArg) (h : AssignInv Q m) :
    AssignInv Q (removeTransition m s t ags) := by
  unfold removeTransition
  split
  · exact h
  · apply foldl_preserve (AssignInv Q) _ ags m h
    intro acc arg _ hacc
    cases arg with
    | str a =>
      apply AssignInv_updateSlot _ _ _ _ hacc
      intro st hq
      cases hg : objGet st.successors a <;> exact hq
    | stateObj st => exact hacc
    | null => exact hacc

theorem AssignInv_removeState (Q : List (String × Bool) → Prop)
    (m : Model) (i : Nat) (h : AssignInv Q m) :
    AssignInv Q (removeState m i) := by
  unfold removeState
  split
  · exact h
  · apply foldl_preserve (AssignInv Q) _ _ _ ?_ ?_
    · intro os hos st hst
      rcases List.mem_or_eq_of_mem_set hos with h2 | h2
      · exact h os h2 st hst
      · rw [h2] at hst
        cases hst
    · intro acc idx _ hacc
      cases hs : stateAt acc idx with
      | none => exact hacc
      | some st =>
        exact AssignInv_removeTransition Q acc idx i (statesAsArgs acc) hacc

theorem AssignInv_addState (Q : List (String × Bool) → Prop) (m : Model)
    (a : List (String × Bool)) (h : AssignInv Q m)
    (hproc : Q (a.foldl
      (fun acc kv => if kv.2 = true then objSet acc kv.1 true else acc) [])) :
    AssignInv Q (addState m a) := by
  intro os hos st hst
  simp only [addState] at hos
  rcases List.mem_append.mp hos with h2 | h2
  · exact h os h2 st hst
  · rw [List.mem_singleton.mp h2] at hst
    injection hst with hst
    rw [← hst]
    exact hproc

theorem AssignInv_editState (Q : List (String × Bool) → Prop) (m : Model)
    (i : Nat) (a : List (String × Bool)) (h : AssignInv Q m)
    (hstep : ∀ kv ∈ a, ∀ acc, Q acc →
      Q (if kv.2 = true then objSet acc kv.1 true else objDelete acc kv.1)) :
    AssignInv Q (editState m i a) := by
  unfold editState
  split
  · exact h
  · apply foldl_preserve (AssignInv Q) _ a m h
    intro acc kv hkv hacc
    apply AssignInv_updateSlot _ _ _ _ hacc
    intro st hq
    have h2 := hstep kv hkv st.assignment hq
    by_cases hb : kv.2 = true
    · simp only [hb, if_true] at h2 ⊢
      exact h2
    · simp only [hb, if_false] at h2 ⊢
      exact h2

theorem processed_all_true (a : List (String × Bool)) :
    ∀ acc, (∀ kv ∈ acc, kv.2 = true) →
      ∀ kv ∈ a.foldl
        (fun acc kv => if kv.2 = true then objSet acc kv.1 true else acc) acc,
        kv.2 = true := by
  induction a with
  | nil => intro acc h; exact h
  | cons b rest ih =>
    intro acc h
    simp only [List.foldl_cons]
    apply ih
    by_cases hb : b.2 = true
    · simp only [hb, if_true]
      intro kv hkv
      rcases mem_objSet b.1 true acc kv hkv with h2 | h2
      · exact h kv h2
      · rw [h2]
    · simp only [hb, if_false]
      exact h

theorem objGet_objSet_none {α : Type} (acc : List (String × α)) (k p : String)
    (v : α) (h : objGet acc p = none) (hk : k ≠ p) :
    objGet (objSet acc k v) p = none := by
  rw [objGet_eq_none_iff] at h ⊢
  intro kv hkv
  rcases mem_objSet k v acc kv hkv with h2 | h2
  · exact h kv h2
  · rw [h2]
    exact hk

theorem objGet_objDelete_none {α : Type} (acc : List (String × α))
    (k p : String) (h : objGet acc p = none) :
    objGet (objDelete acc k) p = none := by
  rw [objGet_eq_none_iff] at h ⊢
  exact fun kv hkv => h kv (mem_objDelete k acc kv hkv)

theorem processed_noProp (p : String) (a : List (String × Bool))
    (ha : ∀ kv ∈ a, ¬(kv.1 = p ∧ kv.2 = true)) :
    ∀ acc, objGet acc p = none →
      objGet (a.foldl
        (fun acc kv => if kv.2 = true then objSet acc kv.1 true else acc) acc)
        p = none := by
  induction a with
  | nil => intro acc h; exact h
  | cons b rest ih =>
    intro acc h
    simp only [List.foldl_cons]
    apply ih (fun kv hkv => ha kv (List.mem_cons_of_mem b hkv))
    by_cases hb : b.2 = true
    · simp only [hb, if_true]
      apply objGet_objSet_none acc b.1 p true h
      intro hbp
      exact ha b (List.mem_cons_self b rest) ⟨hbp, hb⟩
    · simp only [hb, if_false]
      exact h

theorem GoodModelP_applyOp (m : Model) (op : Op) (h : GoodModelP m) :
    GoodModelP (applyOp m op) := by
  cases op with
  | addStateOp a =>
    exact AssignInv_addState _ m a h (processed_all_true a [] (by simp))
  | editStateOp i a =>
    apply AssignInv_editState _ m i a h
    intro kv _ acc hacc
    by_cases hb : kv.2 = true
    · simp only [hb, if_true]
      intro kv2 hkv2
      rcases mem_objSet kv.1 true acc kv2 hkv2 with h2 | h2
      · exact hacc kv2 h2
      · rw [h2]
    · simp only [hb, if_false]
      exact fun kv2 hkv2 => hacc kv2 (mem_objDelete kv.1 acc kv2 hkv2)
  | removeStateOp i => exact AssignInv_removeState _ m i h
  | addTransitionOp s t ags => exact AssignInv_addTransition _ m s t ags h
  | removeTransitionOp s t ags =>
    exact AssignInv_removeTransition _ m s t ags h

/-! ### Claim C1 -/

/-- The two-world model with the agent-a cycle 0 to 1 and 1 to 0. -/
def mC1 : Model :=
  [some { assignment := [], successors := [("a", [1])] },
   some { assignment := [], successors := [("a", [0])] }]

/-- C1: the claim fails on the code. On the model with worlds 0 and 1 and
agent a edges both ways, `getAllSuccessorsOf(0, a)` terminates but returns
only `[1]` instead of the full reachable set containing 0 and 1: the loop
guard `while (C[0])` treats the world index 0, a falsy number, like an
empty queue, so the closure stops as soon as world 0 reaches the queue
head and never marks it visited. -/
theorem C1_cycle_closure_drops_world_zero :
    getAllSuccessorsOf mC1 0 (some "a") = [1] ∧
      0 ∉ getAllSuccessorsOf mC1 0 (some "a") := by
  have h : getAllSuccessorsOf mC1 0 (some "a") = [1] := by
    simp [getAllSuccessorsOf, getSuccessorsOfA, stateAt, objGet, gasLoop, mC1]
  exact ⟨h, by rw [h]; simp⟩

/-! ### Claim C2 -/

/-- One world, no agent relation at all: the merged successor set is
empty. -/
def mC2 : Model := [some { assignment := [], successors := [] }]

/-- C2: the claim fails on the code. At a non-tombstoned world whose
merged successor set is empty because no agent has an entry,
`Poss(p)` evaluates to `true`, not `false`: the `poss` branch reuses the
`nec` branch guard `if (L.length === 0) return true` on the array of
per-agent lists. -/
theorem C2_poss_empty_merged_set_returns_true :
    getSuccessorsOfOld mC2 0 = some [] ∧
      _truth mC2 0 (Json.poss (Json.prop "p")) =
        Except.ok (TruthRes.bool true) := by
  constructor
  · rfl
  · simp [_truth, getSuccessorsOfOld, stateAt, mC2]

/-! ### Claim C3 -/

/-- World 0 has agent-a successor 1 and agent-b successor 2; `p` holds at
1 and fails at 2, so the union of successors does not all satisfy `p`. -/
def mC3 : Model :=
  [some { assignment := [], successors := [("a", [1]), ("b", [2])] },
   some { assignment := [("p", true)], successors := [] },
   some { assignment := [], successors := [] }]

/-- C3: the claim fails on the code. `Nec(p)` at world 0 returns `true`
although world 2, an agent-b successor and so a member of the union of
the per-agent successor lists, does not satisfy `p`: the `nec` branch
quantifies only over `L[0]`, the first agent entry of the map, and
ignores every other agent. -/
theorem C3_nec_ignores_all_but_first_agent :
    getSuccessorsOf mC3 0 "b" = some [2] ∧
      _truth mC3 2 (Json.prop "p") = Except.ok (TruthRes.bool false) ∧
      _truth mC3 0 (Json.nec (Json.prop "p")) =
        Except.ok (TruthRes.bool true) := by
  refine ⟨rfl, ?_, ?_⟩
  · simp [_truth, valuation, stateAt, mC3, objGet, Except.map]
  · simp [_truth, getSuccessorsOfOld, stateAt, mC3, truthEvery, truthy,
      valuation, objGet, Except.map]

/-! ### Claim C4 -/

/-- Two worlds with an agent-a transition from 0 to 1. -/
def mC4 : Model :=
  [some { assignment := [], successors := [("a", [1])] },
   some { assignment := [], successors := [] }]

/-- C4: the claim fails on the code. After `removeState(1)` the slot is a
tombstone and `getSuccessors(1, a)` reports absence, but world 0 still
lists 1 as an agent-a target: the cleanup loop passes the `forEach`
callback its third argument, the states array itself, where
`removeTransition` expects a list of agent names, so `Map.has` never
matches and no transition is ever removed. -/
theorem C4_removeState_keeps_dangling_transitions :
    stateAt (removeState mC4 1) 1 = none ∧
      getSuccessorsOf (removeState mC4 1) 1 "a" = none ∧
      getSuccessorsOf (removeState mC4 1) 0 "a" = some [1] := by
  decide

/-! ### Claim C5 -/

/-- A model inside the round-trip claim domain: world 0 carries a
multi-proposition valuation (`p` and `q`) and a multi-target agent-a
relation to worlds 0 and 2, world 1 is a tombstone. -/
def mC5 : Model :=
  [some { assignment := [("p", true), ("q", true)],
          successors := [("a", [0, 2])] },
   none,
   some { assignment := [], successors := [] }]

/-- What the deserializer rebuilds from the serialized form of `mC5`. -/
def mC5loaded : Model :=
  [some { assignment := [("p", true), ("q", true)], successors := [] },
   none,
   some { assignment := [], successors := [] }]

/-- C5: the claim fails on the code. Serializing `mC5` yields
`Ap,qS;;AS;` with an empty relation segment, the shape the source doc
comment (which documents `AqSa0,2;;AS;` for a one-proposition sibling of
this model) says should carry `a0,2`: `for (var agent in successors)`
enumerates no key of a `Map`. The reload preserves the world count, the
tombstone and the two-proposition valuation, but the agent-a successor
set of world 0 becomes absent instead of `[0, 2]`. -/
theorem C5_round_trip_loses_successor_sets :
    getSuccessorsOf mC5 0 "a" = some [0, 2] ∧
      getModelString mC5 = "Ap,qS;;AS;" ∧
      loadFromModelString mC5 (getModelString mC5) = Except.ok mC5loaded ∧
      getStates mC5loaded = getStates mC5 ∧
      getSuccessorsOf mC5loaded 0 "a" = none := by
  refine ⟨by decide, by decide, by rfl, by decide, by decide⟩

/-! ### Claim C6 -/

/-- C6: confirmed. At a non-tombstoned world where an agent has no
outgoing relation entry (its key is absent from the successor map, as for
an agent never mentioned in the model), `Know(agent, f)` evaluates to
`true` for every formula `f`: `getSuccessorsOf` yields `undefined` and
the `know` branch returns `true` without evaluating `f`. -/
theorem C6_know_vacuously_true_without_relation (m : Model) (w : Nat)
    (st : State) (a : String) (f : Json) (hst : stateAt m w = some st)
    (hget : objGet st.successors a = none) :
    _truth m w (Json.know (Json.prop a) f) = Except.ok (TruthRes.bool true) := by
  have hA : getSuccessorsOfA m w (propOf (Json.prop a)) = none := by
    simp [getSuccessorsOfA, hst, propOf, hget]
  simp [_truth, hA]

/-- A concrete model whose world 0 has an agent-a entry but none for
agent z. -/
def mC6w : Model :=
  [some { assignment := [], successors := [("a", [1])] },
   some { assignment := [], successors := [] }]

/-- Witness for C6 at a concrete model, world, fresh agent and formula. -/
theorem C6_witness :
    _truth mC6w 0 (Json.know (Json.prop "z") (Json.prop "p")) =
      Except.ok (TruthRes.bool true) :=
  C6_know_vacuously_true_without_relation mC6w 0
    { assignment := [], successors := [("a", [1])] } "z" (Json.prop "p")
    rfl rfl

/-! ### Claim C7 -/

/-- C7: confirmed. For any model, world and agents a, b, the union
reachability `gAccessibility` over the two-agent group contains every
world of each single-agent closure, and the intersection reachability
`gAccessStrict` over the group is contained in both closures. -/
theorem C7_union_superset_intersection_subset (m : Model) (i : Nat)
    (a b : String) :
    getAllSuccessorsOf m i (some a) ⊆
        gAccessibility m i [Json.prop a, Json.prop b] ∧
      getAllSuccessorsOf m i (some b) ⊆
        gAccessibility m i [Json.prop a, Json.prop b] ∧
      (gAccessStrict m i [Json.prop a, Json.prop b]).getD [] ⊆
        getAllSuccessorsOf m i (some a) ∧
      (gAccessStrict m i [Json.prop a, Json.prop b]).getD [] ⊆
        getAllSuccessorsOf m i (some b) := by
  have hacc : gAccessibility m i [Json.prop a, Json.prop b] =
      (getAllSuccessorsOf m i (some b)).foldl
        (fun F2 s => if s ∈ F2 then F2 else F2 ++ [s])
        ((getAllSuccessorsOf m i (some a)).foldl
          (fun F2 s => if s ∈ F2 then F2 else F2 ++ [s]) []) := by
    simp [gAccessibility, propOf]
  have hstr : gAccessStrict m i [Json.prop a, Json.prop b] =
      some (((getAllSuccessorsOf m i (some a)).filter
          (fun s => s ∈ getAllSuccessorsOf m i (some a))).filter
        (fun s => s ∈ getAllSuccessorsOf m i (some b))) := by
    simp [gAccessStrict, propOf]
  refine ⟨?_, ?_, ?_, ?_⟩
  · intro x hx
    rw [hacc]
    exact mem_foldl_dedup_left _ _ x (mem_foldl_dedup_right _ _ x hx)
  · intro x hx
    rw [hacc]
    exact mem_foldl_dedup_right _ _ x hx
  · intro x hx
    rw [hstr] at hx
    simp only [Option.getD_some] at hx
    exact ((List.mem_filter.mp (List.mem_filter.mp hx).1).1)
  · intro x hx
    rw [hstr] at hx
    simp only [Option.getD_some] at hx
    have := (List.mem_filter.mp hx).2
    simpa using this

/-! ### Claim C8 -/

/-- The operation, applied to model `m`, sets proposition `p` to `true`
at world `i`: an `addState` creating world `i` (the index of a new world
is the current length) whose assignment maps `p` to `true`, or an
effective `editState` (live target world) on world `i` whose partial
assignment maps `p` to `true`. No other operation writes a truth
value anywhere. -/
def opSetsTrueAt (p : String) (i : Nat) (m : Model) (op : Op) : Bool :=
  match op with
  | Op.addStateOp a =>
    decide (i = m.length) && a.any (fun kv => decide (kv.1 = p) && kv.2)
  | Op.editStateOp j a =>
    decide (j = i) && (stateAt m j).isSome &&
      a.any (fun kv => decide (kv.1 = p) && kv.2)
  | _ => false

/-- Along the trace started at `m`, no operation ever sets `p` true at
world `i`, each operation judged against the model it is applied to. -/
def traceNeverSetsTrueAt (p : String) (i : Nat) (m : Model) :
    List Op → Bool
  | [] => true
  | op :: rest =>
    !(opSetsTrueAt p i m op) && traceNeverSetsTrueAt p i (applyOp m op) rest

/-- World `i`, when live, stores no entry for proposition `p`. -/
def NoPropAtP (p : String) (i : Nat) (m : Model) : Prop :=
  ∀ st, stateAt m i = some st → objGet st.assignment p = none

theorem lt_length_of_stateAt (m : Model) (j : Nat) (st : State)
    (h : stateAt m j = some st) : j < m.length := by
  unfold stateAt at h
  by_contra hlt
  rw [List.getElem?_eq_none (Nat.le_of_not_lt hlt)] at h
  simp at h

theorem stateAt_set_none_self (m : Model) (j : Nat) :
    stateAt (List.set m j none) j = none := by
  unfold stateAt
  by_cases h : j < m.length
  · simp [List.getElem?_set, h]
  · rw [List.set_eq_of_length_le (Nat.le_of_not_lt h)]
    rw [List.getElem?_eq_none (Nat.le_of_not_lt h)]
    rfl

theorem stateAt_set_ne (m : Model) (j i : Nat) (v : Option State)
    (h : i ≠ j) : stateAt (List.set m j v) i = stateAt m i := by
  unfold stateAt
  rw [List.getElem?_set_ne (fun he => h he.symm)]

theorem stateAt_updateSlot_ne (m : Model) (j : Nat) (f : State → State)
    (i : Nat) (h : i ≠ j) : stateAt (updateSlot m j f) i = stateAt m i := by
  unfold updateSlot
  split
  · rfl
  · exact stateAt_set_ne m j i _ h

theorem stateAt_updateSlot_self (m : Model) (j : Nat) (f : State → State) :
    stateAt (updateSlot m j f) j = (stateAt m j).map f := by
  unfold updateSlot
  split
  · next hm => rw [hm]; rfl
  · next st hm =>
    have hj := lt_length_of_stateAt m j st hm
    have hm2 : m[j]? = some (some st) := by
      unfold stateAt at hm
      rwa [Option.join_eq_some] at hm
    unfold stateAt
    rw [List.getElem?_set, hm2]
    simp [hj]

theorem stateAt_append_lt (m : Model) (x : Option State) (i : Nat)
    (h : i < m.length) : stateAt (m ++ [x]) i = stateAt m i := by
  unfold stateAt
  rw [List.getElem?_append]
  simp [h]

theorem stateAt_concat_length (m : Model) (st : State) :
    stateAt (m ++ [some st]) m.length = some st := by
  unfold stateAt
  rw [List.getElem?_concat_length]
  rfl

theorem stateAt_append_ge (m : Model) (x : Option State) (i : Nat)
    (h : m.length < i) : stateAt (m ++ [x]) i = none := by
  unfold stateAt
  rw [List.getElem?_eq_none (by simp; omega)]
  rfl

/-- The two models agree on the assignment of every slot (one is the
other after successor-only edits). -/
def assignmentsEq (m m2 : Model) : Prop :=
  ∀ i, (stateAt m2 i).map State.assignment = (stateAt m i).map State.assignment

theorem assignmentsEq_updateSlot (m : Model) (j : Nat) (f : State → State)
    (hf : ∀ st, (f st).assignment = st.assignment) :
    assignmentsEq m (updateSlot m j f) := by
  intro i
  by_cases h : i = j
  · subst h
    rw [stateAt_updateSlot_self]
    cases stateAt m i <;> simp [hf]
  · rw [stateAt_updateSlot_ne m j f i h]

theorem assignmentsEq_addTransition (m : Model) (s t : Nat)
    (ags : List String) : assignmentsEq m (addTransition m s t ags) := by
  unfold addTransition
  split
  · intro i; rfl
  · apply foldl_preserve (assignmentsEq m) _ ags m (fun i => rfl)
    intro acc agent _ hacc i
    have h2 := assignmentsEq_updateSlot acc s
      (fun st =>
        match objGet st.successors agent with
        | some L => { st with successors := objSet st.successors agent (L ++ [t]) }
        | none => { st with successors := objSet st.successors agent [t] })
      (fun st0 => by
        show (match objGet st0.successors agent with
          | some L => { st0 with successors := objSet st0.successors agent (L ++ [t]) }
          | none => { st0 with successors := objSet st0.successors agent [t] }).assignment
            = st0.assignment
        cases objGet st0.successors agent <;> rfl)
    rw [h2 i, hacc i]

theorem assignmentsEq_removeTransition (m : Model) (s t : Nat)
    (ags : List JsArg) : assignmentsEq m (removeTransition m s t ags) := by
  unfold removeTransition
  split
  · intro i; rfl
  · apply foldl_preserve (assignmentsEq m) _ ags m (fun i => rfl)
    intro acc arg _ hacc i
    cases arg with
    | str a =>
      have h2 := assignmentsEq_updateSlot acc s
        (fun st =>
          match objGet st.successors a with
          | some L => { st with successors := objSet st.successors a (removeFirst L t) }
          | none => st)
        (fun st0 => by
          show (match objGet st0.successors a with
            | some L => { st0 with successors := objSet st0.successors a (removeFirst L t) }
            | none => st0).assignment = st0.assignment
          cases objGet st0.successors a <;> rfl)
      rw [h2 i, hacc i]
    | stateObj st => exact hacc i
    | null => exact hacc i

theorem NoPropAtP_of_assignmentsEq (p : String) (i : Nat) (m m2 : Model)
    (h : NoPropAtP p i m) (he : assignmentsEq m m2) : NoPropAtP p i m2 := by
  intro st hst
  have h2 := he i
  rw [hst] at h2
  cases hm : stateAt m i with
  | none => rw [hm] at h2; simp at h2
  | some st0 =>
    rw [hm] at h2
    simp only [Option.map_some'] at h2
    injection h2 with h2
    rw [h2]
    exact h st0 hm

theorem stateAt_editState_ne (m : Model) (j : Nat)
    (a : List (String × Bool)) (i : Nat) (h : i ≠ j) :
    stateAt (editState m j a) i = stateAt m i := by
  unfold editState
  split
  · rfl
  · apply foldl_preserve (fun acc => stateAt acc i = stateAt m i) _ a m rfl
    intro acc kv _ hacc
    rw [stateAt_updateSlot_ne acc j _ i h, hacc]

theorem NoPropAtP_applyOp (p : String) (i : Nat) (m : Model) (op : Op)
    (h : NoPropAtP p i m) (hop : opSetsTrueAt p i m op = false) :
    NoPropAtP p i (applyOp m op) := by
  cases op with
  | addStateOp a =>
    intro st hst
    simp only [applyOp, addState] at hst
    by_cases hi : i < m.length
    · rw [stateAt_append_lt m _ i hi] at hst
      exact h st hst
    · by_cases he : i = m.length
      · subst he
        rw [stateAt_concat_length] at hst
        injection hst with hst
        rw [← hst]
        have h2 : a.any (fun kv => decide (kv.1 = p) && kv.2) = false := by
          simp only [opSetsTrueAt] at hop
          simpa using hop
        rw [List.any_eq_false] at h2
        apply processed_noProp p a ?_ [] (by simp [objGet])
        intro kv hkv hk
        have h3 := h2 kv hkv
        simp [hk.1, hk.2] at h3
      · rw [stateAt_append_ge m _ i (by omega)] at hst
        cases hst
  | editStateOp j a =>
    by_cases hj : j = i
    · subst hj
      cases hm : stateAt m j with
      | none =>
        simp only [applyOp, editState, hm]
        exact h
      | some st0 =>
        have hany : ∀ kv ∈ a, ¬(kv.1 = p ∧ kv.2 = true) := by
          have h2 : a.any (fun kv => decide (kv.1 = p) && kv.2) = false := by
            simp only [opSetsTrueAt] at hop
            rw [hm] at hop
            simpa using hop
          rw [List.any_eq_false] at h2
          intro kv hkv hk
          have h3 := h2 kv hkv
          simp [hk.1, hk.2] at h3
        simp only [applyOp, editState, hm]
        apply foldl_preserve (NoPropAtP p j) _ a m h
        intro acc kv hkv hacc st hst
        rw [stateAt_updateSlot_self] at hst
        cases hacc2 : stateAt acc j with
        | none => rw [hacc2] at hst; simp at hst
        | some st1 =>
          rw [hacc2] at hst
          simp only [Option.map_some'] at hst
          injection hst with hst
          rw [← hst]
          have hn := hacc st1 hacc2
          by_cases hb : kv.2 = true
          · simp only [hb, if_true]
            apply objGet_objSet_none st1.assignment kv.1 p true hn
            intro hkp
            exact hany kv hkv ⟨hkp, hb⟩
          · simp only [hb, if_false]
            exact objGet_objDelete_none st1.assignment kv.1 p hn
    · intro st hst
      simp only [applyOp] at hst
      rw [stateAt_editState_ne m j a i (fun he => hj he.symm)] at hst
      exact h st hst
  | removeStateOp j =>
    simp only [applyOp]
    unfold removeState
    split
    · exact h
    · apply foldl_preserve (NoPropAtP p i) _ _ _ ?_ ?_
      · intro st hst
        by_cases hij : i = j
        · subst hij
          rw [stateAt_set_none_self] at hst
          cases hst
        · rw [stateAt_set_ne m j i none hij] at hst
          exact h st hst
      · intro acc idx _ hacc
        cases hs : stateAt acc idx with
        | none => exact hacc
        | some st =>
          exact NoPropAtP_of_assignmentsEq p i acc _ hacc
            (assignmentsEq_removeTransition acc idx j (statesAsArgs acc))
  | addTransitionOp s t ags =>
    exact NoPropAtP_of_assignmentsEq p i m _ h
      (assignmentsEq_addTransition m s t ags)
  | removeTransitionOp s t ags =>
    exact NoPropAtP_of_assignmentsEq p i m _ h
      (assignmentsEq_removeTransition m s t ags)

theorem NoPropAtP_trace (p : String) (i : Nat) :
    ∀ (ops : List Op) (m : Model), NoPropAtP p i m →
      traceNeverSetsTrueAt p i m ops = true →
      NoPropAtP p i (ops.foldl applyOp m) := by
  intro ops
  induction ops with
  | nil => intro m h _; exact h
  | cons op rest ih =>
    intro m h htr
    simp only [traceNeverSetsTrueAt, Bool.and_eq_true,
      Bool.not_eq_true'] at htr
    exact ih (applyOp m op) (NoPropAtP_applyOp p i m op h htr.1) htr.2

/-- C8: confirmed. Every model operation maps a model whose stored
valuations contain only `true` entries to another such model, and on any
operation trace from the empty model in which no operation ever sets a
proposition `p` to `true` at world `i` (operations may freely set `p`
true at other worlds), `valuation(p, i)` returns the boolean `false`
whenever world `i` is live (never `undefined`). -/
theorem C8_valuation_invariant :
    (∀ (m : Model) (op : Op),
        goodModel m = true → goodModel (applyOp m op) = true) ∧
      (∀ (ops : List Op) (p : String) (i : Nat),
        traceNeverSetsTrueAt p i [] ops = true →
        stateAt (applyOps ops) i ≠ none →
          valuation (applyOps ops) p i = Except.ok false) := by
  constructor
  · intro m op h
    rw [goodModel_iff] at h ⊢
    exact GoodModelP_applyOp m op h
  · intro ops p i htr hi
    have hnp := NoPropAtP_trace p i ops []
      (fun st hst => by simp [stateAt] at hst) htr
    cases hst : stateAt (applyOps ops) i with
    | none => exact absurd hst hi
    | some st =>
      have hg := hnp st hst
      unfold valuation
      simp only [hst, hg]

/-- Witness for C8: a trace that sets `p` true at world 1 but never at
world 0, and mentions `p` with value `false` at world 0; the valuation of
`p` at world 0 is the boolean `false`. -/
theorem C8_witness :
    goodModel (applyOp [] (Op.addStateOp [("q", true), ("p", false)])) = true ∧
      valuation
        (applyOps [Op.addStateOp [("q", true), ("p", false)],
          Op.addStateOp [("p", true)],
          Op.editStateOp 0 [("p", false)]]) "p" 0 = Except.ok false :=
  ⟨C8_valuation_invariant.1 [] (Op.addStateOp [("q", true), ("p", false)])
      (by decide),
   C8_valuation_invariant.2
      [Op.addStateOp [("q", true), ("p", false)],
        Op.addStateOp [("p", true)],
        Op.editStateOp 0 [("p", false)]] "p" 0 (by decide) (by decide)⟩

/-! ### Claim C9 -/

/-- C9: confirmed. The entry point validates before evaluating: a
non-Model argument fails with the invalid-model error for every state and
formula argument; a Model with an absent or tombstoned world index fails
with the state-not-found error for every formula argument; a non-Wff
formula fails with the invalid-wff error once the world exists; and only
when all three checks pass does it evaluate `_truth` on the tree. -/
theorem C9_entry_point_validation :
    (∀ (state : Nat) (wa : WffArg),
        truth ModelArg.notModel state wa = Except.error "Invalid model!") ∧
      (∀ (m : Model) (state : Nat) (wa : WffArg), stateAt m state = none →
        truth (ModelArg.model m) state wa =
          Except.error ("State " ++ toString state ++ " not found!")) ∧
      (∀ (m : Model) (state : Nat), stateAt m state ≠ none →
        truth (ModelArg.model m) state WffArg.notWff =
          Except.error "Invalid wff!") ∧
      (∀ (m : Model) (state : Nat) (j : Json), stateAt m state ≠ none →
        truth (ModelArg.model m) state (WffArg.wff j) = _truth m state j) := by
  have hgs : ∀ (m : Model) (state : Nat),
      (getStates m)[state]? =
        Option.map (Option.map State.assignment) m[state]? := by
    intro m state
    simp [getStates]
  refine ⟨fun state wa => rfl, ?_, ?_, ?_⟩
  · intro m state wa h
    unfold stateAt at h
    rw [Option.join_eq_none] at h
    rcases h with h | h <;> simp [truth, hgs, h]
  · intro m state h
    unfold stateAt at h
    cases hg : m[state]? with
    | none => rw [hg] at h; simp at h
    | some os =>
      cases os with
      | none => rw [hg] at h; simp at h
      | some st => simp [truth, hgs, hg]
  · intro m state j h
    unfold stateAt at h
    cases hg : m[state]? with
    | none => rw [hg] at h; simp at h
    | some os =>
      cases os with
      | none => rw [hg] at h; simp at h
      | some st => simp [truth, hgs, hg]

/-- Witness for C9 at a one-world model: each of the three rejections and
the pass-through case at concrete arguments. -/
theorem C9_witness :
    truth ModelArg.notModel 0 WffArg.notWff = Except.error "Invalid model!" ∧
      truth (ModelArg.model [some { assignment := [], successors := [] }]) 5
          WffArg.notWff = Except.error ("State " ++ toString 5 ++ " not found!") ∧
      truth (ModelArg.model [some { assignment := [], successors := [] }]) 0
          WffArg.notWff = Except.error "Invalid wff!" ∧
      truth (ModelArg.model [some { assignment := [], successors := [] }]) 0
          (WffArg.wff (Json.prop "p")) =
        _truth [some { assignment := [], successors := [] }] 0 (Json.prop "p") :=
  ⟨C9_entry_point_validation.1 0 WffArg.notWff,
   C9_entry_point_validation.2.1 [some { assignment := [], successors := [] }]
      5 WffArg.notWff (by decide),
   C9_entry_point_validation.2.2.1 [some { assignment := [], successors := [] }]
      0 (by decide),
   C9_entry_point_validation.2.2.2 [some { assignment := [], successors := [] }]
      0 (Json.prop "p") (by decide)⟩

/-! ### Claim C10 -/

theorem jsonToASCII_ok_or_error (j : RawJson) :
    (∃ s, _jsonToASCII j = Except.ok s) ∨
      _jsonToASCII j = Except.error "Invalid JSON for formula!" := by
  match j with
  | RawJson.prop s =>
    by_cases h : s = ""
    · right
      simp [_jsonToASCII, h]
    · left
      exact ⟨s, by simp [_jsonToASCII, h]⟩
  | RawJson.unary k f =>
    rcases jsonToASCII_ok_or_error f with ⟨s, hs⟩ | hs
    · left
      exact ⟨unSymbol k ++ s, by simp [_jsonToASCII, hs]⟩
    · right
      simp [_jsonToASCII, hs]
  | RawJson.binary k [a, b] =>
    rcases jsonToASCII_ok_or_error a with ⟨sa, hsa⟩ | hsa
    · rcases jsonToASCII_ok_or_error b with ⟨sb, hsb⟩ | hsb
      · left
        exact ⟨binWrap k sa sb, by simp [_jsonToASCII, hsa, hsb]⟩
      · right
        simp [_jsonToASCII, hsa, hsb]
    · right
      simp [_jsonToASCII, hsa]
  | RawJson.binary k [] => right; simp [_jsonToASCII]
  | RawJson.binary k [a] => right; simp [_jsonToASCII]
  | RawJson.binary k (a :: b :: c :: rest) => right; simp [_jsonToASCII]
  | RawJson.unrecognized => right; rfl

theorem jsonToASCII_bad (j : RawJson) (h : hasBadNode j = true) :
    _jsonToASCII j = Except.error "Invalid JSON for formula!" := by
  match j with
  | RawJson.prop s => simp [hasBadNode] at h
  | RawJson.unary k f =>
    simp only [hasBadNode] at h
    simp [_jsonToASCII, jsonToASCII_bad f h]
  | RawJson.binary k [a, b] =>
    simp only [hasBadNode, hasBadNodeList] at h
    simp at h
    rcases h with h | h
    · simp [_jsonToASCII, jsonToASCII_bad a h]
    · rcases jsonToASCII_ok_or_error a with ⟨sa, hsa⟩ | hsa
      · simp [_jsonToASCII, hsa, jsonToASCII_bad b h]
      · simp [_jsonToASCII, hsa]
  | RawJson.binary k [] => simp [_jsonToASCII]
  | RawJson.binary k [a] => simp [_jsonToASCII]
  | RawJson.binary k (a :: b :: c :: rest) => simp [_jsonToASCII]
  | RawJson.unrecognized => rfl

/-- C10: confirmed. Constructing a `Wff` from a JSON tree containing any
node of no recognized kind, or any recognized binary tag over a child
array whose length is not two, throws `Invalid JSON for formula!` during
construction (while computing the ASCII form, before any evaluation);
contrapositively every successfully constructed `Wff` holds a tree of
recognized nodes only. -/
theorem C10_wff_construction_rejects_bad_nodes (j : RawJson)
    (h : hasBadNode j = true) :
    Wff j = Except.error "Invalid JSON for formula!" :=
  jsonToASCII_bad j h

/-- Witness for C10: a `conj` node with a one-element child array. -/
theorem C10_witness :
    Wff (RawJson.binary BinKind.conj [RawJson.prop "p"]) =
      Except.error "Invalid JSON for formula!" :=
  C10_wff_construction_rejects_bad_nodes
    (RawJson.binary BinKind.conj [RawJson.prop "p"]) (by decide)
